import Mathlib

/-!
Shallow embedding of the retirement-savings computation core
(`app/services.py` of the repository).  Timestamps are modelled as
integers: the code formats and reparses datetimes through the fixed
format `YYYY-MM-DD HH:MM:SS`, which is an order-preserving bijection at
second granularity, so an abstract linearly ordered time axis suffices.
Monetary values (Python floats) are modelled as rationals; the claims
under study concern the algebraic structure of the computation, not
floating-point rounding.
-/

namespace Retirement

/-- Timestamps at second granularity, modelled as integers. -/
abbrev Timestamp := Int

/-- Deduplication identity key: the pair (date, amount), as used by
`_check_validation_errors` call sites. -/
abbrev TxKey := Timestamp × ℚ

/-- Mirrors `TransactionBase` of `app/models.py`. -/
structure TransactionBase where
  date : Timestamp
  amount : ℚ
deriving DecidableEq

/-- Mirrors the enriched-transaction dictionaries produced by
`enrich_transactions` (fields date, amount, ceiling, remnant). -/
structure TransactionEnriched where
  date : Timestamp
  amount : ℚ
  ceiling : ℚ
  remnant : ℚ
deriving DecidableEq

/-- Mirrors `PeriodQ` of `app/models.py` (override period).  The source
field `end` is a Lean keyword and is rendered `stop`. -/
structure PeriodQ where
  fixed : ℚ
  start : Timestamp
  stop : Timestamp
deriving DecidableEq

/-- Mirrors `PeriodP` of `app/models.py` (bonus period). -/
structure PeriodP where
  extra : ℚ
  start : Timestamp
  stop : Timestamp
deriving DecidableEq

/-- Mirrors `PeriodK` of `app/models.py` (evaluation period). -/
structure PeriodK where
  start : Timestamp
  stop : Timestamp
deriving DecidableEq

/-- One step of the scan in `_apply_q_periods`: keep the current best
period unless the new one matches the date and has a strictly later
start (`period.start > best_q_period.start` in the source). -/
def qStep (d : Timestamp) (best : Option PeriodQ) (p : PeriodQ) : Option PeriodQ :=
  if p.start ≤ d ∧ d ≤ p.stop then
    match best with
    | none => some p
    | some b => if b.start < p.start then some p else some b
  else best

/-- Embeds `_apply_q_periods` of `app/services.py`: use the matching
period with the latest start date, else return the base remnant. -/
def apply_q_periods (d : Timestamp) (base : ℚ) (ps : List PeriodQ) : ℚ :=
  match ps.foldl (qStep d) none with
  | some b => b.fixed
  | none => base

/-- Embeds `_apply_p_periods` of `app/services.py`: add `extra` for
every matching bonus period, scanning in input order. -/
def apply_p_periods (d : Timestamp) (remnant : ℚ) (ps : List PeriodP) : ℚ :=
  ps.foldl (fun r p => if p.start ≤ d ∧ d ≤ p.stop then r + p.extra else r) remnant

/-- Embeds `_check_k_periods` of `app/services.py`. -/
def check_k_periods (d : Timestamp) (ps : List PeriodK) : Bool :=
  ps.any (fun p => decide (p.start ≤ d ∧ d ≤ p.stop))

/-- The ceiling computation of `enrich_transactions`:
`ceil(amount / 100) * 100`. -/
def ceil100 (a : ℚ) : ℚ := ((⌈a / 100⌉ * 100 : ℤ) : ℚ)

/-- Embeds the per-transaction body of `enrich_transactions`. -/
def enrich (t : TransactionBase) : TransactionEnriched :=
  { date := t.date
    amount := t.amount
    ceiling := ceil100 t.amount
    remnant := ceil100 t.amount - t.amount }

/-- Embeds `enrich_transactions` of `app/services.py`. -/
def enrich_transactions (ts : List TransactionBase) : List TransactionEnriched :=
  ts.map enrich

/-- The deduplication key `(date, amount)` of a transaction. -/
def keyOf (t : TransactionEnriched) : TxKey := (t.date, t.amount)

/-- Embeds `_check_validation_errors` of `app/services.py`: the error
list, negative-amount check first, duplicate check second.  The Python
`seen` set is modelled as the list of keys inserted so far (membership
is all that is ever used). -/
def check_validation_errors (amount : ℚ) (key : TxKey) (seen : List TxKey) : List String :=
  (if amount < 0 then ["Negative amounts are not allowed"] else []) ++
    (if key ∈ seen then ["Duplicate transaction"] else [])

/-- One insertion step of the `seen` set: the source adds the key only
when the transaction produced no validation errors. -/
def step_seen (seen : List TxKey) (t : TransactionEnriched) : List TxKey :=
  if check_validation_errors t.amount (keyOf t) seen = [] then keyOf t :: seen else seen

/-- The `seen` set after scanning a list of transactions, starting from
`seen` (the threading common to `validate_transactions`,
`filter_transactions_by_periods` and `_validate_enriched_transactions`). -/
def seen_go : List TransactionEnriched → List TxKey → List TxKey
  | [], seen => seen
  | t :: ts, seen => seen_go ts (step_seen seen t)

/-- Embeds the loop of `validate_transactions`: classify each
transaction as valid, or invalid with the joined error message; only
error-free transactions enter the `seen` set.  (The source tests
truthiness of the joined message string, which is nonempty exactly when
the error list is.) -/
def validate_go :
    List TransactionEnriched → List TxKey →
      List TransactionEnriched × List (TransactionEnriched × String)
  | [], _ => ([], [])
  | t :: ts, seen =>
    let errs := check_validation_errors t.amount (keyOf t) seen
    if errs = [] then
      let r := validate_go ts (keyOf t :: seen)
      (t :: r.1, r.2)
    else
      let r := validate_go ts seen
      (r.1, (t, String.intercalate "; " errs) :: r.2)

/-- Embeds `validate_transactions` of `app/services.py`. -/
def validate_transactions (ts : List TransactionEnriched) :
    List TransactionEnriched × List (TransactionEnriched × String) :=
  validate_go ts []

/-- Embeds `calculate_tax` of `app/services.py` (simplified Indian tax
slabs), with the source's decimal literals as exact rationals. -/
def calculate_tax (income : ℚ) : ℚ :=
  if income ≤ 700000 then 0
  else if income ≤ 1000000 then (income - 700000) * 0.10
  else if income ≤ 1200000 then 300000 * 0.10 + (income - 1000000) * 0.15
  else if income ≤ 1500000 then 300000 * 0.10 + 200000 * 0.15 + (income - 1200000) * 0.20
  else 300000 * 0.10 + 200000 * 0.15 + 300000 * 0.20 + (income - 1500000) * 0.30

/-- Embeds `get_returns` of `app/services.py`: annual compounding with
frequency `n = 1`, deflated by inflation (already in decimal form at
this point of the pipeline). -/
def get_returns (amount : ℚ) (years : ℕ) (rate inflation : ℚ) : ℚ :=
  let n : ℕ := 1
  let nominal := amount * (1 + rate / (n : ℚ)) ^ (n * years)
  nominal / ((1 + inflation) ^ years)

/-- A valid entry of the `filter_transactions_by_periods` response: the
enriched dictionary with its remnant overwritten and the `inKPeriod`
flag added. -/
structure FilteredEntry where
  date : Timestamp
  amount : ℚ
  ceiling : ℚ
  remnant : ℚ
  inKPeriod : Bool
deriving DecidableEq

/-- An invalid entry of the filter response (date, amount, message). -/
structure InvalidEntry where
  date : Timestamp
  amount : ℚ
  message : String
deriving DecidableEq

/-- The remnant after period adjustment, exactly in the order of the
source: override (`_apply_q_periods`) first, then bonus
(`_apply_p_periods`). -/
def adjusted_remnant (qs : List PeriodQ) (ps : List PeriodP) (t : TransactionEnriched) : ℚ :=
  apply_p_periods t.date (apply_q_periods t.date t.remnant qs) ps

/-- Embeds the loop of `filter_transactions_by_periods`: validate with
the shared seen-set threading, then apply override and bonus periods,
and keep the entry only when the final remnant is strictly positive. -/
def filter_go :
    List TransactionEnriched → List TxKey → List PeriodQ → List PeriodP → List PeriodK →
      List FilteredEntry × List InvalidEntry
  | [], _, _, _, _ => ([], [])
  | t :: ts, seen, qs, ps, ks =>
    let errs := check_validation_errors t.amount (keyOf t) seen
    if errs = [] then
      let remnant := adjusted_remnant qs ps t
      let r := filter_go ts (keyOf t :: seen) qs ps ks
      if 0 < remnant then
        ({ date := t.date, amount := t.amount, ceiling := t.ceiling,
           remnant := remnant, inKPeriod := check_k_periods t.date ks } :: r.1, r.2)
      else r
    else
      let r := filter_go ts seen qs ps ks
      (r.1, { date := t.date, amount := t.amount,
              message := String.intercalate "; " errs } :: r.2)

/-- Embeds `filter_transactions_by_periods` of `app/services.py`
(`None` period lists at the HTTP boundary become empty lists before the
loop, so the embedding takes lists directly). -/
def filter_transactions_by_periods (ts : List TransactionBase)
    (qs : List PeriodQ) (ps : List PeriodP) (ks : List PeriodK) :
    List FilteredEntry × List InvalidEntry :=
  filter_go (enrich_transactions ts) [] qs ps ks

/-- Embeds `_validate_enriched_transactions` of `app/services.py`:
keep only the error-free transactions, threading the seen set. -/
def validate_enriched_transactions :
    List TransactionEnriched → List TxKey → List TransactionEnriched
  | [], _ => []
  | t :: ts, seen =>
    if check_validation_errors t.amount (keyOf t) seen = [] then
      t :: validate_enriched_transactions ts (keyOf t :: seen)
    else
      validate_enriched_transactions ts seen

/-- A processed transaction of `_process_transactions_with_periods`. -/
structure ProcessedTx where
  date : Timestamp
  amount : ℚ
  ceiling : ℚ
  remnant : ℚ
deriving DecidableEq

/-- Embeds `_process_transactions_with_periods` of `app/services.py`:
returns (processed transactions with positive adjusted remnant,
total amount, total ceiling); the totals accumulate over every
transaction of the input, before the remnant test. -/
def process_transactions_with_periods :
    List TransactionEnriched → List PeriodQ → List PeriodP →
      List ProcessedTx × ℚ × ℚ
  | [], _, _ => ([], 0, 0)
  | t :: ts, qs, ps =>
    let remnant := adjusted_remnant qs ps t
    let r := process_transactions_with_periods ts qs ps
    (if 0 < remnant then
        ({ date := t.date, amount := t.amount, ceiling := t.ceiling,
           remnant := remnant } : ProcessedTx) :: r.1
      else r.1,
     t.amount + r.2.1, t.ceiling + r.2.2)

/-- Rounding to two decimal places (`round(x, 2)` at the emission
boundary), modelled exactly on rationals. -/
def round2 (q : ℚ) : ℚ := ((round (q * 100) : ℤ) : ℚ) / 100

/-- One entry of `savingsByDates` as built by
`_calculate_k_period_savings` (the source field `end` is rendered
`stop`). -/
structure KSavings where
  start : Timestamp
  stop : Timestamp
  amount : ℚ
  profits : ℚ
  taxBenefit : ℚ
deriving DecidableEq

/-- The aggregation loop of `_calculate_k_period_savings`: sum the
remnants of the processed transactions whose date lies in the inclusive
evaluation interval. -/
def period_investment (k : PeriodK) (pts : List ProcessedTx) : ℚ :=
  pts.foldl (fun acc t => if k.start ≤ t.date ∧ t.date ≤ k.stop then acc + t.remnant else acc) 0

/-- Embeds `_calculate_k_period_savings` of `app/services.py`.  `age`
is the Python `int`; the horizon `60 - age` is positive whenever
`age < 60`, so `Int.toNat` is exact there. -/
def calculate_k_period_savings (k : PeriodK) (pts : List ProcessedTx) (age : ℤ)
    (rate inflation annual_income : ℚ) (should_calculate_tax : Bool) : KSavings :=
  let inv := period_investment k pts
  let years : ℕ := if age < 60 then (60 - age).toNat else 5
  let real_value := get_returns inv years rate inflation
  let profit := real_value - inv
  let tax_benefit : ℚ :=
    if should_calculate_tax ∧ 0 < inv then
      let nps_deduction := min inv (min (0.10 * annual_income) 200000)
      calculate_tax annual_income - calculate_tax (annual_income - nps_deduction)
    else 0
  { start := k.start, stop := k.stop, amount := round2 inv,
    profits := round2 profit, taxBenefit := round2 tax_benefit }

/-- The response of `calculate_returns`. -/
structure ReturnsResult where
  totalTransactionAmount : ℚ
  totalCeiling : ℚ
  savingsByDates : List KSavings
deriving DecidableEq

/-- Embeds `calculate_returns` of `app/services.py`: enrich, validate
(silently dropping invalid transactions), apply override and bonus
periods accumulating totals, then project every evaluation period. -/
def calculate_returns (ts : List TransactionBase) (qs : List PeriodQ) (ps : List PeriodP)
    (ks : List PeriodK) (age : ℤ) (wage inflation rate : ℚ)
    (should_calculate_tax : Bool) : ReturnsResult :=
  let enriched := enrich_transactions ts
  let valid_enriched := validate_enriched_transactions enriched []
  let r := process_transactions_with_periods valid_enriched qs ps
  let annual_income := wage * 12
  let infl := inflation / 100
  { totalTransactionAmount := round2 r.2.1
    totalCeiling := round2 r.2.2
    savingsByDates :=
      ks.map (fun k =>
        calculate_k_period_savings k r.1 age rate infl annual_income should_calculate_tax) }

/-- Embeds `calculate_nps_returns`: rate 7.11%, tax benefits enabled. -/
def calculate_nps_returns (ts : List TransactionBase) (qs : List PeriodQ) (ps : List PeriodP)
    (ks : List PeriodK) (age : ℤ) (wage inflation : ℚ) : ReturnsResult :=
  calculate_returns ts qs ps ks age wage inflation 0.0711 true

/-- Embeds `calculate_index_returns`: rate 14.49%, no tax benefits. -/
def calculate_index_returns (ts : List TransactionBase) (qs : List PeriodQ) (ps : List PeriodP)
    (ks : List PeriodK) (age : ℤ) (wage inflation : ℚ) : ReturnsResult :=
  calculate_returns ts qs ps ks age wage inflation 0.1449 false

/-- The tax slab function exactly as the specification words it, with
the cumulative slab constants 30000 / 60000 / 120000 written out; used
to compare `calculate_tax` against the specification. -/
def calculateTaxSpec (income : ℚ) : ℚ :=
  if income ≤ 700000 then 0
  else if income ≤ 1000000 then (income - 700000) * 0.10
  else if income ≤ 1200000 then 30000 + (income - 1000000) * 0.15
  else if income ≤ 1500000 then 60000 + (income - 1200000) * 0.20
  else 120000 + (income - 1500000) * 0.30

/-- The override periods whose inclusive interval contains the date, in
input order. -/
def qMatches (d : Timestamp) (ps : List PeriodQ) : List PeriodQ :=
  ps.filter (fun p => decide (p.start ≤ d ∧ d ≤ p.stop))

/-- The bonus periods whose inclusive interval contains the date, in
input order. -/
def pMatches (d : Timestamp) (ps : List PeriodP) : List PeriodP :=
  ps.filter (fun p => decide (p.start ≤ d ∧ d ≤ p.stop))

/-- Invariant of the `_apply_q_periods` scan: relative to the list `M`
of matching periods seen so far, the accumulator is `none` when `M` is
empty, and otherwise holds a matching period with maximal start that is
the first of `M` attaining that start. -/
def QAcc (M : List PeriodQ) (acc : Option PeriodQ) : Prop :=
  (acc = none ∧ M = []) ∨
    ∃ b l₁ l₂, acc = some b ∧ M = l₁ ++ b :: l₂ ∧
      (∀ q ∈ M, q.start ≤ b.start) ∧ (∀ q ∈ l₁, q.start < b.start)

/-- Claim C5: `calculate_tax` is the progressive slab function of the
specification (income ≤ 700000 gives 0; ≤ 1000000 gives 10% of the
excess over 700000; ≤ 1200000 gives 30000 plus 15% of the excess over
1000000; ≤ 1500000 gives 60000 plus 20% of the excess over 1200000;
otherwise 120000 plus 30% of the excess over 1500000), and the three
quoted values hold exactly. -/
theorem calculate_tax_matches_slabs :
    (∀ income : ℚ, calculate_tax income = calculateTaxSpec income) ∧
      calculate_tax 700000 = 0 ∧ calculate_tax 1000000 = 30000 ∧
      calculate_tax 2000000 = 270000 := by
  refine ⟨fun income => ?_, by norm_num [calculate_tax], by norm_num [calculate_tax],
    by norm_num [calculate_tax]⟩
  unfold calculate_tax calculateTaxSpec
  split_ifs <;> norm_num

/-- Claim C2 counterexample: two override periods with the identical
start 0 both contain the timestamp 0; the period occurring last in
input order carries `fixed = 2`, yet the code returns `1`, the `fixed`
of the first matching period. -/
theorem apply_q_equal_start_last_does_not_win :
    apply_q_periods 0 5 [⟨1, 0, 10⟩, ⟨2, 0, 10⟩] = 1 ∧ (1 : ℚ) ≠ 2 := by
  exact ⟨by decide, by norm_num⟩

/-- Claim C3 counterexample: a transaction of amount 100 has final
remnant 0 (≤ 0) after adjustment, yet its raw amount 100 is still
included in `totalTransactionAmount`, so such a transaction is not
excluded from every aggregated total. -/
theorem remnant_zero_still_counted_in_totals :
    adjusted_remnant [] [] (enrich ⟨0, 100⟩) = 0 ∧
      (calculate_returns [⟨0, 100⟩] [] [] [] 30 0 0 0 false).totalTransactionAmount = 100 ∧
      (100 : ℚ) ≠ 0 := by
  refine ⟨?_, ?_, by norm_num⟩
  · norm_num [adjusted_remnant, apply_p_periods, apply_q_periods, qStep, enrich, ceil100]
  · norm_num [calculate_returns, enrich_transactions, enrich, ceil100,
      validate_enriched_transactions, check_validation_errors, keyOf,
      process_transactions_with_periods, adjusted_remnant, apply_q_periods,
      apply_p_periods, qStep, round2, round_eq]

/-- Claim C9: enrichment computes the least multiple of 100 at or above
the amount; the remnant is ceiling minus amount and lies in [0, 100);
an exact multiple of 100 has remnant 0. -/
theorem enrich_ceiling_least_multiple (t : TransactionBase) :
    (enrich t).remnant = (enrich t).ceiling - t.amount ∧
      t.amount ≤ (enrich t).ceiling ∧
      0 ≤ (enrich t).remnant ∧ (enrich t).remnant < 100 ∧
      (∃ k : ℤ, (enrich t).ceiling = (k : ℚ) * 100) ∧
      (∀ m : ℤ, t.amount ≤ (m : ℚ) * 100 → (enrich t).ceiling ≤ (m : ℚ) * 100) ∧
      (∀ k : ℤ, t.amount = (k : ℚ) * 100 → (enrich t).remnant = 0) := by
  have h100 : (0 : ℚ) < 100 := by norm_num
  have hle : t.amount ≤ ceil100 t.amount := by
    have h := Int.le_ceil (t.amount / 100)
    calc t.amount = t.amount / 100 * 100 := by field_simp
    _ ≤ (⌈t.amount / 100⌉ : ℚ) * 100 := by
        exact mul_le_mul_of_nonneg_right h (by norm_num)
    _ = ceil100 t.amount := by simp [ceil100]
  have hlt : ceil100 t.amount < t.amount + 100 := by
    have h := Int.ceil_lt_add_one (t.amount / 100)
    calc ceil100 t.amount = (⌈t.amount / 100⌉ : ℚ) * 100 := by simp [ceil100]
    _ < (t.amount / 100 + 1) * 100 := by
        exact mul_lt_mul_of_pos_right h h100
    _ = t.amount + 100 := by field_simp
  refine ⟨rfl, hle, ?_, ?_, ⟨⌈t.amount / 100⌉, by simp [enrich, ceil100]⟩, ?_, ?_⟩
  · simpa [enrich] using hle
  · simp only [enrich]
    linarith
  · intro m hm
    have hdiv : t.amount / 100 ≤ (m : ℚ) := by
      rw [div_le_iff₀ h100]
      exact hm
    have hceil : ⌈t.amount / 100⌉ ≤ m := Int.ceil_le.mpr (by exact_mod_cast hdiv)
    have : (⌈t.amount / 100⌉ : ℚ) ≤ (m : ℚ) := by exact_mod_cast hceil
    calc (enrich t).ceiling = (⌈t.amount / 100⌉ : ℚ) * 100 := by simp [enrich, ceil100]
    _ ≤ (m : ℚ) * 100 := mul_le_mul_of_nonneg_right this (by norm_num)
  · intro k hk
    have hdiv : t.amount / 100 = (k : ℚ) := by
      rw [hk]; field_simp
    have : ⌈t.amount / 100⌉ = k := by
      rw [hdiv]; exact Int.ceil_intCast k
    simp [enrich, ceil100, this, hk]

/-- Claim C9 witness: the transaction of amount 950 instantiates the
enrichment properties; its ceiling is bounded by the multiple 1000. -/
theorem enrich_ceiling_least_multiple_inst :
    (enrich ⟨0, 950⟩).remnant = (enrich ⟨0, 950⟩).ceiling - 950 ∧
      (enrich ⟨0, 950⟩).ceiling ≤ (10 : ℤ) * 100 ∧
      (enrich ⟨0, (1000 : ℚ)⟩).remnant = 0 := by
  refine ⟨(enrich_ceiling_least_multiple ⟨0, 950⟩).1, ?_, ?_⟩
  · exact (enrich_ceiling_least_multiple ⟨0, 950⟩).2.2.2.2.2.1 10 (by norm_num)
  · exact (enrich_ceiling_least_multiple ⟨0, 1000⟩).2.2.2.2.2.2 10 (by norm_num)

/-- The scan of `_apply_q_periods` preserves the selection invariant
over the list of matches accumulated so far. -/
theorem qfold_invariant (d : Timestamp) :
    ∀ (ps : List PeriodQ) (M : List PeriodQ) (acc : Option PeriodQ),
      QAcc M acc → QAcc (M ++ qMatches d ps) (ps.foldl (qStep d) acc) := by
  intro ps
  induction ps with
  | nil => intro M acc h; simpa [qMatches] using h
  | cons p rest ih =>
    intro M acc h
    by_cases hm : p.start ≤ d ∧ d ≤ p.stop
    · have hq : qMatches d (p :: rest) = p :: qMatches d rest := by
        simp [qMatches, hm]
      have hM' : M ++ qMatches d (p :: rest) = (M ++ [p]) ++ qMatches d rest := by
        rw [hq]; simp
      rw [hM', List.foldl_cons]
      apply ih
      rcases h with ⟨hnone, hMnil⟩ | ⟨b, l₁, l₂, hacc, hMeq, hub, hlt⟩
      · subst hnone; subst hMnil
        refine Or.inr ⟨p, [], [], ?_, by simp, ?_, by simp⟩
        · simp [qStep, hm]
        · intro q hqmem
          simp only [List.nil_append, List.mem_cons, List.not_mem_nil, or_false] at hqmem
          simp [hqmem]
      · subst hacc
        by_cases hbp : b.start < p.start
        · refine Or.inr ⟨p, M, [], ?_, by simp, ?_, ?_⟩
          · simp [qStep, hm, hbp]
          · intro q hqmem
            rcases List.mem_append.mp hqmem with hq1 | hq2
            · exact le_of_lt (lt_of_le_of_lt (hub q hq1) hbp)
            · simp only [List.mem_singleton] at hq2
              simp [hq2]
          · intro q hq1
            exact lt_of_le_of_lt (hub q hq1) hbp
        · refine Or.inr ⟨b, l₁, l₂ ++ [p], ?_, ?_, ?_, hlt⟩
          · simp [qStep, hm, hbp]
          · rw [hMeq]; simp
          · intro q hqmem
            rcases List.mem_append.mp hqmem with hq1 | hq2
            · exact hub q hq1
            · simp only [List.mem_singleton] at hq2
              subst hq2
              exact not_lt.mp hbp
    · have hq : qMatches d (p :: rest) = qMatches d rest := by
        simp [qMatches, hm]
      have hstep : qStep d acc p = acc := by simp [qStep, hm]
      rw [hq, List.foldl_cons, hstep]
      exact ih M acc h

/-- Claim C2 (amended): if no override period matches, the base remnant
is returned; otherwise the result is the `fixed` value of a matching
period whose start is maximal among all matches and which is the first
match in input order attaining that start (on identical latest starts
the FIRST matching period in input order wins, not the last). -/
theorem apply_q_periods_selection (d : Timestamp) (base : ℚ) (ps : List PeriodQ) :
    (qMatches d ps = [] → apply_q_periods d base ps = base) ∧
      (qMatches d ps ≠ [] →
        ∃ p l₁ l₂, qMatches d ps = l₁ ++ p :: l₂ ∧
          apply_q_periods d base ps = p.fixed ∧
          (∀ q ∈ qMatches d ps, q.start ≤ p.start) ∧
          (∀ q ∈ l₁, q.start < p.start)) := by
  have h := qfold_invariant d ps [] none (Or.inl ⟨rfl, rfl⟩)
  simp only [List.nil_append] at h
  constructor
  · intro he
    rcases h with ⟨hnone, _⟩ | ⟨b, l₁, l₂, _, hMeq, _, _⟩
    · simp [apply_q_periods, hnone]
    · rw [he] at hMeq
      exact absurd hMeq.symm (List.append_ne_nil_of_right_ne_nil l₁ (by simp))
  · intro hne
    rcases h with ⟨_, hMnil⟩ | ⟨b, l₁, l₂, hacc, hMeq, hub, hlt⟩
    · exact absurd hMnil hne
    · exact ⟨b, l₁, l₂, hMeq, by simp [apply_q_periods, hacc], hub, hlt⟩

/-- Claim C2 amended witness: with two overlapping periods of identical
start, the selection theorem applies and yields the first one. -/
theorem apply_q_periods_selection_inst :
    ∃ p l₁ l₂, qMatches 0 [(⟨1, 0, 10⟩ : PeriodQ), ⟨2, 0, 10⟩] = l₁ ++ p :: l₂ ∧
      apply_q_periods 0 5 [⟨1, 0, 10⟩, ⟨2, 0, 10⟩] = p.fixed ∧
      (∀ q ∈ qMatches 0 [(⟨1, 0, 10⟩ : PeriodQ), ⟨2, 0, 10⟩], q.start ≤ p.start) ∧
      (∀ q ∈ l₁, q.start < p.start) :=
  (apply_q_periods_selection 0 5 [⟨1, 0, 10⟩, ⟨2, 0, 10⟩]).2 (by decide)

/-- Bonus application adds the `extra` of every matching period: the
scan equals the starting remnant plus the sum over matches. -/
theorem apply_p_periods_eq_sum (d : Timestamp) (r : ℚ) (ps : List PeriodP) :
    apply_p_periods d r ps = r + ((pMatches d ps).map PeriodP.extra).sum := by
  induction ps generalizing r with
  | nil => simp [apply_p_periods, pMatches]
  | cons p rest ih =>
    have hstep : apply_p_periods d r (p :: rest) =
        apply_p_periods d (if p.start ≤ d ∧ d ≤ p.stop then r + p.extra else r) rest := rfl
    by_cases hm : p.start ≤ d ∧ d ≤ p.stop
    · have hpm : pMatches d (p :: rest) = p :: pMatches d rest := by
        simp [pMatches, hm]
      rw [hstep, if_pos hm, ih, hpm]
      simp
      ring
    · have hpm : pMatches d (p :: rest) = pMatches d rest := by
        simp [pMatches, hm]
      rw [hstep, if_neg hm, ih, hpm]

/-- Every valid entry of the filter loop stems from an input
transaction, carries the override-then-bonus adjusted remnant, and that
remnant is strictly positive. -/
theorem filter_go_valid_mem (qs : List PeriodQ) (ps : List PeriodP) (ks : List PeriodK) :
    ∀ (ts : List TransactionEnriched) (seen : List TxKey) (e : FilteredEntry),
      e ∈ (filter_go ts seen qs ps ks).1 →
      ∃ t ∈ ts,
        e = { date := t.date, amount := t.amount, ceiling := t.ceiling,
              remnant := adjusted_remnant qs ps t,
              inKPeriod := check_k_periods t.date ks } ∧
          0 < adjusted_remnant qs ps t := by
  intro ts
  induction ts with
  | nil => intro seen e h; simp [filter_go] at h
  | cons t rest ih =>
    intro seen e h
    simp only [filter_go] at h
    split_ifs at h with herr hrem
    · rcases List.mem_cons.mp h with he | he
      · exact ⟨t, List.mem_cons_self t rest, he, hrem⟩
      · rcases ih _ e he with ⟨u, hu, hue, hur⟩
        exact ⟨u, List.mem_cons_of_mem t hu, hue, hur⟩
    · rcases ih _ e h with ⟨u, hu, hue, hur⟩
      exact ⟨u, List.mem_cons_of_mem t hu, hue, hur⟩
    · rcases ih _ e h with ⟨u, hu, hue, hur⟩
      exact ⟨u, List.mem_cons_of_mem t hu, hue, hur⟩

/-- Claim C7: bonus periods stack additively in input order with no
limit on the number of matches, and every valid entry of
`filter_transactions_by_periods` carries a remnant obtained by first
replacing the enrichment remnant through the override periods and then
adding every matching bonus `extra`; the strict-positivity inclusion
test is applied to that final adjusted remnant. -/
theorem filter_applies_override_then_bonus (ts : List TransactionBase)
    (qs : List PeriodQ) (ps : List PeriodP) (ks : List PeriodK) :
    (∀ (d : Timestamp) (r : ℚ) (bonus : List PeriodP),
        apply_p_periods d r bonus = r + ((pMatches d bonus).map PeriodP.extra).sum) ∧
      ∀ e ∈ (filter_transactions_by_periods ts qs ps ks).1,
        ∃ t ∈ ts,
          e.remnant = apply_p_periods t.date (apply_q_periods t.date (enrich t).remnant qs) ps ∧
            0 < e.remnant ∧ e.date = t.date ∧ e.amount = t.amount ∧
            e.ceiling = (enrich t).ceiling ∧ e.inKPeriod = check_k_periods t.date ks := by
  refine ⟨apply_p_periods_eq_sum, fun e he => ?_⟩
  rcases filter_go_valid_mem qs ps ks (enrich_transactions ts) [] e he with ⟨u, hu, hue, hur⟩
  rcases List.mem_map.mp hu with ⟨t, ht, hut⟩
  subst hut
  refine ⟨t, ht, ?_, ?_, ?_, ?_, ?_, ?_⟩
  · simp [hue, adjusted_remnant, enrich]
  · simpa [hue, adjusted_remnant, enrich] using hur
  · simp [hue, enrich]
  · simp [hue, enrich]
  · simp [hue, enrich]
  · simp [hue, enrich]

/-- Claim C7 witness: amount 950 (base remnant 50), one override period
fixing the remnant to 10, two stacking bonus periods adding 5 and 7:
the valid entry carries remnant 10 + 5 + 7 = 22 > 0. -/
theorem filter_applies_override_then_bonus_inst :
    ∃ t ∈ [(⟨0, 950⟩ : TransactionBase)],
      (22 : ℚ) =
          apply_p_periods t.date (apply_q_periods t.date (enrich t).remnant [⟨10, 0, 10⟩])
            [⟨5, 0, 10⟩, ⟨7, 0, 10⟩] ∧
        (0 : ℚ) < 22 := by
  have hmem : (⟨0, 950, 1000, 22, true⟩ : FilteredEntry) ∈
      (filter_transactions_by_periods [⟨0, 950⟩] [⟨10, 0, 10⟩] [⟨5, 0, 10⟩, ⟨7, 0, 10⟩]
        [⟨0, 10⟩]).1 := by
    have hc : ceil100 950 = 1000 := by
      norm_num [ceil100]
      rw [show ⌈(19 : ℚ) / 2⌉ = 10 by norm_num [Int.ceil_eq_iff]]
      norm_num
    norm_num [filter_transactions_by_periods, filter_go, enrich_transactions, enrich, hc,
      check_validation_errors, keyOf, adjusted_remnant, apply_q_periods, apply_p_periods,
      qStep, check_k_periods]
  have h := (filter_applies_override_then_bonus [⟨0, 950⟩] [⟨10, 0, 10⟩]
      [⟨5, 0, 10⟩, ⟨7, 0, 10⟩] [⟨0, 10⟩]).2 ⟨0, 950, 1000, 22, true⟩ hmem
  rcases h with ⟨t, ht, h1, h2, _⟩
  exact ⟨t, ht, h1, h2⟩

/-- A transaction passes validation exactly when its amount is
non-negative and its key is unseen. -/
theorem check_errors_nil_iff (a : ℚ) (k : TxKey) (s : List TxKey) :
    check_validation_errors a k s = [] ↔ 0 ≤ a ∧ k ∉ s := by
  unfold check_validation_errors
  split_ifs with h1 h2 <;> simp_all

/-- The totals of `_process_transactions_with_periods` are the plain
sums of amounts and ceilings over the whole input list. -/
theorem process_totals (qs : List PeriodQ) (ps : List PeriodP) :
    ∀ ts : List TransactionEnriched,
      (process_transactions_with_periods ts qs ps).2.1 =
          (ts.map TransactionEnriched.amount).sum ∧
        (process_transactions_with_periods ts qs ps).2.2 =
          (ts.map TransactionEnriched.ceiling).sum := by
  intro ts
  induction ts with
  | nil => simp [process_transactions_with_periods]
  | cons t rest ih =>
    simp only [process_transactions_with_periods, List.map_cons, List.sum_cons]
    exact ⟨by rw [ih.1], by rw [ih.2]⟩

/-- Transactions surviving `_validate_enriched_transactions` have
non-negative amounts. -/
theorem validate_enriched_mem_nonneg :
    ∀ (ts : List TransactionEnriched) (seen : List TxKey),
      ∀ t ∈ validate_enriched_transactions ts seen, 0 ≤ t.amount := by
  intro ts
  induction ts with
  | nil => intro seen t ht; simp [validate_enriched_transactions] at ht
  | cons t rest ih =>
    intro seen u hu
    simp only [validate_enriched_transactions] at hu
    split_ifs at hu with herr
    · rcases List.mem_cons.mp hu with h | h
      · subst h
        exact ((check_errors_nil_iff u.amount (keyOf u) seen).mp herr).1
      · exact ih _ u h
    · exact ih _ u hu

/-- Claim C8: the reported totals are the sums of raw amounts and of
ceilings over every transaction that passes validation, independent of
the override, bonus and evaluation period lists (none appears on the
right-hand side), and every such transaction has non-negative amount. -/
theorem returns_totals_over_all_valid (ts : List TransactionBase) (qs : List PeriodQ)
    (ps : List PeriodP) (ks : List PeriodK) (age : ℤ) (wage inflation rate : ℚ) (b : Bool) :
    (calculate_returns ts qs ps ks age wage inflation rate b).totalTransactionAmount =
        round2 (((validate_enriched_transactions (enrich_transactions ts) []).map
          TransactionEnriched.amount).sum) ∧
      (calculate_returns ts qs ps ks age wage inflation rate b).totalCeiling =
        round2 (((validate_enriched_transactions (enrich_transactions ts) []).map
          TransactionEnriched.ceiling).sum) ∧
      ∀ t ∈ validate_enriched_transactions (enrich_transactions ts) [], 0 ≤ t.amount := by
  refine ⟨?_, ?_, validate_enriched_mem_nonneg (enrich_transactions ts) []⟩
  · simp only [calculate_returns]
    rw [(process_totals qs ps (validate_enriched_transactions (enrich_transactions ts) [])).1]
  · simp only [calculate_returns]
    rw [(process_totals qs ps (validate_enriched_transactions (enrich_transactions ts) [])).2]

/-- Claim C8 witness: with one valid transaction of amount 950 and one
of amount 30 (no periods at all), the totals are 980 and 1100. -/
theorem returns_totals_over_all_valid_inst :
    (calculate_returns [⟨0, 950⟩, ⟨1, 30⟩] [] [] [] 30 0 0 0 false).totalTransactionAmount =
        round2 (((validate_enriched_transactions
          (enrich_transactions [⟨0, 950⟩, ⟨1, 30⟩]) []).map TransactionEnriched.amount).sum) ∧
      (0 : ℚ) ≤ (enrich ⟨0, 950⟩).amount :=
  ⟨(returns_totals_over_all_valid [⟨0, 950⟩, ⟨1, 30⟩] [] [] [] 30 0 0 0 false).1,
    (returns_totals_over_all_valid [⟨0, 950⟩, ⟨1, 30⟩] [] [] [] 30 0 0 0 false).2.2
      (enrich ⟨0, 950⟩)
      (by
        have hc : ceil100 950 = 1000 := by
          norm_num [ceil100]
          rw [show ⌈(19 : ℚ) / 2⌉ = 10 by norm_num [Int.ceil_eq_iff]]
          norm_num
        norm_num [validate_enriched_transactions, enrich_transactions, enrich, hc,
          check_validation_errors, keyOf])⟩

/-- Claim C1: every evaluation period's reported profit is the rounded
difference between the real value and the period investment, where the
real value is investment × (1 + rate)^years / (1 + inflation/100)^years
(annual compounding, frequency 1), and the horizon is 60 − age for
age < 60 and exactly 5 otherwise. -/
theorem returns_projection_formula (ts : List TransactionBase) (qs : List PeriodQ)
    (ps : List PeriodP) (ks : List PeriodK) (age : ℤ) (wage inflation rate : ℚ) (b : Bool) :
    (calculate_returns ts qs ps ks age wage inflation rate b).savingsByDates.map
          KSavings.profits =
        ks.map (fun k =>
          let inv := period_investment k
            (process_transactions_with_periods
              (validate_enriched_transactions (enrich_transactions ts) []) qs ps).1
          let years : ℕ := if age < 60 then (60 - age).toNat else 5
          round2 (inv * (1 + rate) ^ years / (1 + inflation / 100) ^ years - inv)) ∧
      (∀ a : ℤ, a < 60 → ((if a < 60 then (60 - a).toNat else 5 : ℕ) : ℤ) = 60 - a) ∧
      (∀ a : ℤ, ¬a < 60 → (if a < 60 then (60 - a).toNat else 5 : ℕ) = 5) ∧
      ∀ (amount : ℚ) (years : ℕ) (r i : ℚ),
        get_returns amount years r i = amount * (1 + r) ^ years / (1 + i) ^ years := by
  refine ⟨?_, ?_, ?_, ?_⟩
  · simp only [calculate_returns, List.map_map]
    apply List.map_congr_left
    intro k _
    simp only [Function.comp_apply, calculate_k_period_savings, get_returns]
    norm_num
  · intro a ha
    rw [if_pos ha]
    exact Int.toNat_of_nonneg (by omega)
  · intro a ha
    rw [if_neg ha]
  · intro amount years r i
    norm_num [get_returns]

/-- Claim C1 witness: age 30 gives horizon 30, age 65 gives horizon 5,
and the compounding formula instantiates at a concrete input. -/
theorem returns_projection_formula_inst :
    ((if (30 : ℤ) < 60 then ((60 : ℤ) - 30).toNat else 5 : ℕ) : ℤ) = 60 - 30 ∧
      (if (65 : ℤ) < 60 then ((60 : ℤ) - 65).toNat else 5 : ℕ) = 5 ∧
      get_returns 50 5 (1 / 10) 0 = 50 * (1 + 1 / 10) ^ 5 / (1 + 0) ^ 5 :=
  ⟨(returns_projection_formula [] [] [] [] 30 0 0 0 false).2.1 30 (by norm_num),
    (returns_projection_formula [] [] [] [] 30 0 0 0 false).2.2.1 65 (by norm_num),
    (returns_projection_formula [] [] [] [] 30 0 0 0 false).2.2.2 50 5 (1 / 10) 0⟩

/-- Claim C6: the reported tax benefit of an evaluation period is
`calculate_tax(annualIncome) − calculate_tax(annualIncome − d)` with
`d = min(investment, 10% of annualIncome, 200000)` and annualIncome =
wage × 12, exactly when tax computation is enabled and the period
investment is strictly positive, and 0 in every other case; the NPS
preset is the one that enables tax computation. -/
theorem returns_tax_benefit (ts : List TransactionBase) (qs : List PeriodQ)
    (ps : List PeriodP) (ks : List PeriodK) (age : ℤ) (wage inflation rate : ℚ) (b : Bool) :
    (calculate_returns ts qs ps ks age wage inflation rate b).savingsByDates.map
          KSavings.taxBenefit =
        ks.map (fun k =>
          let inv := period_investment k
            (process_transactions_with_periods
              (validate_enriched_transactions (enrich_transactions ts) []) qs ps).1
          if b ∧ 0 < inv then
            round2 (calculate_tax (wage * 12) -
              calculate_tax (wage * 12 - min inv (min (0.10 * (wage * 12)) 200000)))
          else 0) ∧
      calculate_nps_returns ts qs ps ks age wage inflation =
        calculate_returns ts qs ps ks age wage inflation 0.0711 true ∧
      calculate_index_returns ts qs ps ks age wage inflation =
        calculate_returns ts qs ps ks age wage inflation 0.1449 false := by
  refine ⟨?_, rfl, rfl⟩
  simp only [calculate_returns, List.map_map]
  apply List.map_congr_left
  intro k _
  simp only [Function.comp_apply, calculate_k_period_savings]
  by_cases hc : b = true ∧ 0 < period_investment k
      (process_transactions_with_periods
        (validate_enriched_transactions (enrich_transactions ts) []) qs ps).1
  · simp [hc]
  · simp only [if_neg hc]
    norm_num [round2, round_eq]

/-- The seen-set only ever grows during a scan. -/
theorem mem_seen_go_of_mem (k : TxKey) :
    ∀ (ts : List TransactionEnriched) (s : List TxKey), k ∈ s → k ∈ seen_go ts s := by
  intro ts
  induction ts with
  | nil => intro s h; exact h
  | cons t rest ih =>
    intro s h
    have hstep : k ∈ step_seen s t := by
      unfold step_seen
      split_ifs <;> simp [h]
    exact ih _ hstep

/-- Key membership in the final seen-set: a key was inserted exactly
when some transaction carrying it produced zero validation errors at
its own position of the scan. -/
theorem mem_seen_go_iff (k : TxKey) :
    ∀ (ts : List TransactionEnriched) (s : List TxKey),
      k ∈ seen_go ts s ↔
        k ∈ s ∨ ∃ l₁ u l₂, ts = l₁ ++ u :: l₂ ∧ keyOf u = k ∧
          check_validation_errors u.amount (keyOf u) (seen_go l₁ s) = [] := by
  intro ts
  induction ts with
  | nil =>
    intro s
    simp [seen_go]
  | cons t rest ih =>
    intro s
    constructor
    · intro h
      rcases (ih (step_seen s t)).mp h with hk | ⟨l₁, u, l₂, hdec, hku, herr⟩
      · unfold step_seen at hk
        by_cases he : check_validation_errors t.amount (keyOf t) s = []
        · rw [if_pos he] at hk
          rcases List.mem_cons.mp hk with h1 | h1
          · exact Or.inr ⟨[], t, rest, rfl, h1.symm, by simpa [seen_go] using he⟩
          · exact Or.inl h1
        · rw [if_neg he] at hk
          exact Or.inl hk
      · refine Or.inr ⟨t :: l₁, u, l₂, by rw [hdec, List.cons_append], hku, ?_⟩
        simpa [seen_go] using herr
    · intro h
      rcases h with hk | ⟨l₁, u, l₂, hdec, hku, herr⟩
      · refine mem_seen_go_of_mem k rest (step_seen s t) ?_
        unfold step_seen
        split_ifs <;> simp [hk]
      · cases l₁ with
        | nil =>
          simp only [List.nil_append, List.cons_eq_cons] at hdec
          rcases hdec with ⟨htu, hrest⟩
          subst htu
          refine mem_seen_go_of_mem k rest (step_seen s t) ?_
          rw [step_seen, if_pos (by simpa [seen_go] using herr)]
          simp [hku]
        | cons v l₁' =>
          simp only [List.cons_append, List.cons_eq_cons] at hdec
          rcases hdec with ⟨htv, hrest⟩
          subst htv
          refine (ih (step_seen s t)).mpr (Or.inr ⟨l₁', u, l₂, hrest, hku, ?_⟩)
          simpa [seen_go] using herr

/-- The validation loop splits over list concatenation, the second half
running with the seen-set accumulated over the first. -/
theorem validate_go_append (l₁ l₂ : List TransactionEnriched) :
    ∀ s : List TxKey,
      validate_go (l₁ ++ l₂) s =
        ((validate_go l₁ s).1 ++ (validate_go l₂ (seen_go l₁ s)).1,
          (validate_go l₁ s).2 ++ (validate_go l₂ (seen_go l₁ s)).2) := by
  induction l₁ with
  | nil => intro s; simp [validate_go, seen_go]
  | cons t rest ih =>
    intro s
    by_cases he : check_validation_errors t.amount (keyOf t) s = []
    · simp only [List.cons_append, validate_go, if_pos he, seen_go, step_seen,
        List.append_eq]
      rw [ih (keyOf t :: s)]
    · simp only [List.cons_append, validate_go, if_neg he, seen_go, step_seen,
        List.append_eq]
      rw [ih s]

/-- A transaction with zero errors at its position lands in the valid
output of `validate_transactions`. -/
theorem validate_mem_valid (pre : List TransactionEnriched) (t : TransactionEnriched)
    (post : List TransactionEnriched)
    (he : check_validation_errors t.amount (keyOf t) (seen_go pre []) = []) :
    t ∈ (validate_transactions (pre ++ t :: post)).1 := by
  unfold validate_transactions
  rw [validate_go_append pre (t :: post) []]
  refine List.mem_append_right _ ?_
  simp only [validate_go, if_pos he]
  exact List.mem_cons_self _ _

/-- A transaction with a nonempty error list at its position lands in
the invalid output of `validate_transactions`, carrying the joined
message. -/
theorem validate_mem_invalid (pre : List TransactionEnriched) (t : TransactionEnriched)
    (post : List TransactionEnriched)
    (he : check_validation_errors t.amount (keyOf t) (seen_go pre []) ≠ []) :
    (t, String.intercalate "; " (check_validation_errors t.amount (keyOf t) (seen_go pre []))) ∈
      (validate_transactions (pre ++ t :: post)).2 := by
  unfold validate_transactions
  rw [validate_go_append pre (t :: post) []]
  refine List.mem_append_right _ ?_
  simp only [validate_go, if_neg he]
  exact List.mem_cons_self _ _

/-- Claim C10: a key is in the seen set exactly when some transaction
carrying it produced zero validation errors at its position, so a
transaction all of whose earlier same-key occurrences were invalid is
not flagged as a duplicate and receives exactly the errors it earns on
its own (the negative-amount error when applicable); error-free
transactions land in `valid` and the others in `invalid` with the
joined message. -/
theorem seen_set_only_valid_transactions :
    (∀ (ts : List TransactionEnriched) (k : TxKey),
        k ∈ seen_go ts [] ↔
          ∃ l₁ u l₂, ts = l₁ ++ u :: l₂ ∧ keyOf u = k ∧
            check_validation_errors u.amount (keyOf u) (seen_go l₁ []) = []) ∧
      (∀ (pre : List TransactionEnriched) (t : TransactionEnriched),
        (∀ l₁ u l₂, pre = l₁ ++ u :: l₂ → keyOf u = keyOf t →
            check_validation_errors u.amount (keyOf u) (seen_go l₁ []) ≠ []) →
          check_validation_errors t.amount (keyOf t) (seen_go pre []) =
            if t.amount < 0 then ["Negative amounts are not allowed"] else []) ∧
      ∀ (pre : List TransactionEnriched) (t : TransactionEnriched)
          (post : List TransactionEnriched),
        (check_validation_errors t.amount (keyOf t) (seen_go pre []) = [] →
            t ∈ (validate_transactions (pre ++ t :: post)).1) ∧
          (check_validation_errors t.amount (keyOf t) (seen_go pre []) ≠ [] →
            (t, String.intercalate "; "
                (check_validation_errors t.amount (keyOf t) (seen_go pre []))) ∈
              (validate_transactions (pre ++ t :: post)).2) := by
  refine ⟨fun ts k => by simpa using mem_seen_go_iff k ts [], fun pre t h => ?_,
    fun pre t post => ⟨validate_mem_valid pre t post, validate_mem_invalid pre t post⟩⟩
  have hnot : keyOf t ∉ seen_go pre [] := by
    intro hmem
    rcases (mem_seen_go_iff (keyOf t) pre []).mp hmem with hfalse | ⟨l₁, u, l₂, hdec, hku, herr⟩
    · simp at hfalse
    · exact h l₁ u l₂ hdec hku herr
  simp [check_validation_errors, hnot]

/-- Claim C10 witness: a negative-amount transaction following an
identical negative-amount transaction earns only the negative-amount
error, not the duplicate flag. -/
theorem seen_set_only_valid_transactions_inst :
    check_validation_errors (enrich ⟨0, -5⟩).amount (keyOf (enrich ⟨0, -5⟩))
        (seen_go [enrich ⟨0, -5⟩] []) =
      (if (enrich ⟨0, -5⟩).amount < 0 then ["Negative amounts are not allowed"] else []) := by
  refine seen_set_only_valid_transactions.2.1 [enrich ⟨0, -5⟩] (enrich ⟨0, -5⟩) ?_
  intro l₁ u l₂ hdec hk
  cases l₁ with
  | nil =>
    simp only [List.nil_append, List.cons_eq_cons] at hdec
    rcases hdec with ⟨hue, _⟩
    subst hue
    norm_num [check_validation_errors, enrich, seen_go]
  | cons v l₁' =>
    simp at hdec

/-- Counting valid occurrences of a non-negative key during the scan:
zero when already seen, else one exactly when the key occurs at all. -/
theorem valid_filter_count (k : TxKey) (hk : 0 ≤ k.2) :
    ∀ (ts : List TransactionEnriched) (s : List TxKey),
      ((validate_go ts s).1.filter (fun u => decide (keyOf u = k))).length =
        if k ∈ s then 0 else if ts.any (fun u => decide (keyOf u = k)) then 1 else 0 := by
  intro ts
  induction ts with
  | nil =>
    intro s
    simp [validate_go]
  | cons t rest ih =>
    intro s
    have hunf : validate_go (t :: rest) s =
        if check_validation_errors t.amount (keyOf t) s = [] then
          (t :: (validate_go rest (keyOf t :: s)).1, (validate_go rest (keyOf t :: s)).2)
        else ((validate_go rest s).1,
          (t, String.intercalate "; " (check_validation_errors t.amount (keyOf t) s)) ::
            (validate_go rest s).2) := rfl
    rw [hunf]
    by_cases he : check_validation_errors t.amount (keyOf t) s = []
    · rw [if_pos he]
      by_cases hkt : keyOf t = k
      · have hks : k ∉ s := by
          have hni := (check_errors_nil_iff t.amount (keyOf t) s).mp he
          rw [hkt] at hni
          exact hni.2
        have hrec := ih (keyOf t :: s)
        rw [if_pos (by simp [hkt])] at hrec
        rw [List.filter_cons_of_pos (by simp [hkt]), List.length_cons, hrec,
          if_neg hks, List.any_cons]
        have hd : decide (keyOf t = k) = true := by simp [hkt]
        rw [hd, Bool.true_or, if_pos rfl]
      · have hrec := ih (keyOf t :: s)
        have hmem : (k ∈ keyOf t :: s) ↔ k ∈ s := by
          simp only [List.mem_cons]
          constructor
          · rintro (h | h)
            · exact absurd h.symm hkt
            · exact h
          · exact Or.inr
        rw [if_congr hmem rfl rfl] at hrec
        rw [List.filter_cons_of_neg (by simp [hkt]), hrec, List.any_cons]
        have hd : decide (keyOf t = k) = false := by simp [hkt]
        rw [hd, Bool.false_or]
    · rw [if_neg he]
      rw [ih s, List.any_cons]
      by_cases hkt : keyOf t = k
      · have hks : k ∈ s := by
          by_contra hns
          apply he
          refine (check_errors_nil_iff t.amount (keyOf t) s).mpr ⟨?_, ?_⟩
          · have hta : t.amount = k.2 := congrArg Prod.snd hkt
            rw [hta]; exact hk
          · rw [hkt]; exact hns
        rw [if_pos hks, if_pos hks]
      · have hd : decide (keyOf t = k) = false := by simp [hkt]
        rw [hd, Bool.false_or]

/-- A non-negative key that occurs among the scanned transactions (or
was already seen) is in the final seen-set: the first error-free
occurrence inserts it. -/
theorem key_seen_of_earlier_occurrence (k : TxKey) (hk : 0 ≤ k.2) :
    ∀ (pre : List TransactionEnriched) (s : List TxKey),
      (k ∈ s ∨ ∃ u ∈ pre, keyOf u = k) → k ∈ seen_go pre s := by
  intro pre
  induction pre with
  | nil =>
    intro s h
    rcases h with h | ⟨u, hu, _⟩
    · exact h
    · simp at hu
  | cons t rest ih =>
    intro s h
    refine ih (step_seen s t) ?_
    rcases h with hs | ⟨u, hu, hku⟩
    · refine Or.inl ?_
      unfold step_seen
      split_ifs <;> simp [hs]
    · rcases List.mem_cons.mp hu with h1 | h1
      · subst h1
        refine Or.inl ?_
        unfold step_seen
        by_cases he : check_validation_errors u.amount (keyOf u) s = []
        · rw [if_pos he]
          simp [hku]
        · rw [if_neg he]
          have hmem : keyOf u ∈ s := by
            by_contra hns
            apply he
            refine (check_errors_nil_iff u.amount (keyOf u) s).mpr ⟨?_, hns⟩
            have : u.amount = k.2 := congrArg Prod.snd hku
            rw [this]; exact hk
          rw [hku] at hmem
          exact hmem
      · exact Or.inr ⟨u, h1, hku⟩

/-- Claim C4 counterexample: two identical transactions of amount −5;
neither appears in `valid` (the claim requires exactly one), and the
second is reported with the negative-amount message, not with
"Duplicate transaction". -/
theorem duplicate_pair_negative_neither_valid :
    (validate_transactions [enrich ⟨0, -5⟩, enrich ⟨0, -5⟩]).1 = [] ∧
      (validate_transactions [enrich ⟨0, -5⟩, enrich ⟨0, -5⟩]).2.map Prod.snd =
        ["Negative amounts are not allowed", "Negative amounts are not allowed"] := by
  constructor <;>
    norm_num [validate_transactions, validate_go, check_validation_errors, keyOf, enrich,
      String.intercalate, String.intercalate.go]

/-- Claim C4 (amended): for a key with non-negative amount, exactly one
transaction carrying it lands in `valid` (when it occurs at all), and
any occurrence preceded by an occurrence of the same key lands in
`invalid` with message "Duplicate transaction". -/
theorem duplicate_key_classification :
    (∀ (ts : List TransactionEnriched) (k : TxKey), 0 ≤ k.2 →
        ((validate_transactions ts).1.filter (fun u => decide (keyOf u = k))).length =
          if ts.any (fun u => decide (keyOf u = k)) then 1 else 0) ∧
      ∀ (pre : List TransactionEnriched) (t : TransactionEnriched)
          (post : List TransactionEnriched),
        0 ≤ t.amount → (∃ u ∈ pre, keyOf u = keyOf t) →
          (t, "Duplicate transaction") ∈ (validate_transactions (pre ++ t :: post)).2 := by
  constructor
  · intro ts k hk
    have h := valid_filter_count k hk ts []
    simpa [validate_transactions] using h
  · intro pre t post ha hex
    have hkmem : keyOf t ∈ seen_go pre [] :=
      key_seen_of_earlier_occurrence (keyOf t) ha pre [] (Or.inr hex)
    have he : check_validation_errors t.amount (keyOf t) (seen_go pre []) =
        ["Duplicate transaction"] := by
      simp [check_validation_errors, hkmem, not_lt.mpr ha]
    have h2 := validate_mem_invalid pre t post (by rw [he]; simp)
    rw [he] at h2
    have hmsg : String.intercalate "; " ["Duplicate transaction"] = "Duplicate transaction" :=
      rfl
    rw [hmsg] at h2
    exact h2

/-- Claim C4 amended witness: two identical transactions of amount 50;
the key occurs, so exactly one copy is valid and the second lands in
`invalid` flagged as a duplicate. -/
theorem duplicate_key_classification_inst :
    (((validate_transactions [enrich ⟨0, 50⟩, enrich ⟨0, 50⟩]).1.filter
        (fun u => decide (keyOf u = ((0 : Timestamp), (50 : ℚ))))).length =
      if [enrich ⟨0, 50⟩, enrich ⟨0, 50⟩].any
          (fun u => decide (keyOf u = ((0 : Timestamp), (50 : ℚ)))) then 1 else 0) ∧
      (enrich ⟨0, 50⟩, "Duplicate transaction") ∈
        (validate_transactions ([enrich ⟨0, 50⟩] ++ enrich ⟨0, 50⟩ :: [])).2 :=
  ⟨duplicate_key_classification.1 [enrich ⟨0, 50⟩, enrich ⟨0, 50⟩] (0, 50) (by norm_num),
    duplicate_key_classification.2 [enrich ⟨0, 50⟩] (enrich ⟨0, 50⟩) [] (by norm_num [enrich])
      ⟨enrich ⟨0, 50⟩, by simp, rfl⟩⟩

/-- The filter loop splits over list concatenation, the second half
running with the seen-set accumulated over the first. -/
theorem filter_go_append (qs : List PeriodQ) (ps : List PeriodP) (ks : List PeriodK)
    (l₁ l₂ : List TransactionEnriched) :
    ∀ s : List TxKey,
      filter_go (l₁ ++ l₂) s qs ps ks =
        ((filter_go l₁ s qs ps ks).1 ++ (filter_go l₂ (seen_go l₁ s) qs ps ks).1,
          (filter_go l₁ s qs ps ks).2 ++ (filter_go l₂ (seen_go l₁ s) qs ps ks).2) := by
  induction l₁ with
  | nil => intro s; simp [filter_go, seen_go]
  | cons t rest ih =>
    intro s
    by_cases he : check_validation_errors t.amount (keyOf t) s = []
    · by_cases hrem : 0 < adjusted_remnant qs ps t
      · simp only [List.cons_append, filter_go, if_pos he, if_pos hrem, seen_go, step_seen,
          List.append_eq]
        rw [ih (keyOf t :: s)]
      · simp only [List.cons_append, filter_go, if_pos he, if_neg hrem, seen_go, step_seen,
          List.append_eq]
        rw [ih (keyOf t :: s)]
    · simp only [List.cons_append, filter_go, if_neg he, seen_go, step_seen,
        List.append_eq]
      rw [ih s]

/-- The processing loop splits over list concatenation; the totals
add up. -/
theorem process_append (qs : List PeriodQ) (ps : List PeriodP)
    (l₁ l₂ : List TransactionEnriched) :
    process_transactions_with_periods (l₁ ++ l₂) qs ps =
      ((process_transactions_with_periods l₁ qs ps).1 ++
          (process_transactions_with_periods l₂ qs ps).1,
        (process_transactions_with_periods l₁ qs ps).2.1 +
          (process_transactions_with_periods l₂ qs ps).2.1,
        (process_transactions_with_periods l₁ qs ps).2.2 +
          (process_transactions_with_periods l₂ qs ps).2.2) := by
  induction l₁ with
  | nil => simp [process_transactions_with_periods]
  | cons t rest ih =>
    simp only [List.cons_append, process_transactions_with_periods, List.append_eq, ih]
    by_cases hrem : 0 < adjusted_remnant qs ps t
    · simp only [if_pos hrem, List.cons_append]
      refine Prod.ext rfl (Prod.ext ?_ ?_) <;> simp <;> ring
    · simp only [if_neg hrem]
      refine Prod.ext rfl (Prod.ext ?_ ?_) <;> simp <;> ring

/-- Claim C3 (amended): a validated transaction whose final adjusted
remnant is ≤ 0 contributes no entry to the valid or invalid output of
the filter pipeline and no entry to the processed list feeding the
per-period investment sums — it is not reported as a validation error —
but its raw amount and its ceiling ARE included in the running totals
of the returns pipeline. -/
theorem remnant_nonpositive_excluded_but_counted (qs : List PeriodQ) (ps : List PeriodP)
    (ks : List PeriodK) (pre post : List TransactionEnriched) (t : TransactionEnriched) :
    (check_validation_errors t.amount (keyOf t) (seen_go pre []) = [] →
        adjusted_remnant qs ps t ≤ 0 →
        filter_go (pre ++ t :: post) [] qs ps ks =
          ((filter_go pre [] qs ps ks).1 ++
              (filter_go post (keyOf t :: seen_go pre []) qs ps ks).1,
            (filter_go pre [] qs ps ks).2 ++
              (filter_go post (keyOf t :: seen_go pre []) qs ps ks).2)) ∧
      (adjusted_remnant qs ps t ≤ 0 →
        process_transactions_with_periods (pre ++ t :: post) qs ps =
          ((process_transactions_with_periods pre qs ps).1 ++
              (process_transactions_with_periods post qs ps).1,
            (process_transactions_with_periods pre qs ps).2.1 +
              (t.amount + (process_transactions_with_periods post qs ps).2.1),
            (process_transactions_with_periods pre qs ps).2.2 +
              (t.ceiling + (process_transactions_with_periods post qs ps).2.2))) := by
  constructor
  · intro he hrem
    rw [filter_go_append qs ps ks pre (t :: post) []]
    have hstep : filter_go (t :: post) (seen_go pre []) qs ps ks =
        filter_go post (keyOf t :: seen_go pre []) qs ps ks := by
      simp only [filter_go, if_pos he, if_neg (not_lt.mpr hrem)]
    rw [hstep]
  · intro hrem
    rw [process_append qs ps pre (t :: post)]
    have hstep : process_transactions_with_periods (t :: post) qs ps =
        ((process_transactions_with_periods post qs ps).1,
          t.amount + (process_transactions_with_periods post qs ps).2.1,
          t.ceiling + (process_transactions_with_periods post qs ps).2.2) := by
      simp only [process_transactions_with_periods, if_neg (not_lt.mpr hrem)]
    rw [hstep]

/-- Claim C3 amended witness: amount 100 (final remnant 0) with no
periods; the transaction is skipped by the filter and processing lists
while its amount and ceiling enter the totals. -/
theorem remnant_nonpositive_excluded_but_counted_inst :
    filter_go ([] ++ enrich ⟨0, 100⟩ :: []) [] [] [] [] =
        ((filter_go [] [] [] [] []).1 ++
            (filter_go [] (keyOf (enrich ⟨0, 100⟩) :: seen_go [] []) [] [] []).1,
          (filter_go [] [] [] [] []).2 ++
            (filter_go [] (keyOf (enrich ⟨0, 100⟩) :: seen_go [] []) [] [] []).2) ∧
      process_transactions_with_periods ([] ++ enrich ⟨0, 100⟩ :: []) [] [] =
        ((process_transactions_with_periods [] [] []).1 ++
            (process_transactions_with_periods [] [] []).1,
          (process_transactions_with_periods [] [] []).2.1 +
            ((enrich ⟨0, 100⟩).amount + (process_transactions_with_periods [] [] []).2.1),
          (process_transactions_with_periods [] [] []).2.2 +
            ((enrich ⟨0, 100⟩).ceiling + (process_transactions_with_periods [] [] []).2.2)) := by
  have hadj : adjusted_remnant [] [] (enrich ⟨0, 100⟩) ≤ 0 := by
    norm_num [adjusted_remnant, apply_p_periods, apply_q_periods, qStep, enrich, ceil100]
  have herr : check_validation_errors (enrich ⟨0, 100⟩).amount (keyOf (enrich ⟨0, 100⟩))
      (seen_go [] []) = [] := by
    norm_num [check_validation_errors, keyOf, enrich, seen_go]
  exact ⟨(remnant_nonpositive_excluded_but_counted [] [] [] [] [] (enrich ⟨0, 100⟩)).1 herr hadj,
    (remnant_nonpositive_excluded_but_counted [] [] [] [] [] (enrich ⟨0, 100⟩)).2 hadj⟩

end Retirement
